import Mathlib

/-
Shallow embedding of the `@r/frames` messaging module (src/index.js).

The module keeps process-wide mutable registries (allowed origins, active
message namespaces, proxy table, listening flag) and routes window messages:
`postMessage` serializes an envelope and hands it to the host transport,
`handleReceiveMessage` filters inbound events by origin and namespace, forwards
proxied namespaces, and re-emits the message as a local custom event, which the
`receiveMessage` / `receiveMessageOnce` listeners consume.

Regular expressions built by `compileOriginRegExp` and `compileNamespaceRegExp`
are embedded by a small executable matcher (`Rx.run`) that mirrors the exact
pattern text the source compiles, including the unparenthesized alternation in
the origin pattern and the unescaped dot of the stored default namespace.
-/

set_option maxHeartbeats 1000000

namespace Frames

/-- JavaScript values appearing in message envelopes: strings, integer numbers,
booleans, objects with ordered field lists, `undefined`, and opaque host
objects (tagged by a number). -/
inductive JSVal where
  | str : String → JSVal
  | num : Int → JSVal
  | jbool : Bool → JSVal
  | obj : List (String × JSVal) → JSVal
  | undef : JSVal
  | host : Nat → JSVal

/-- Field lookup on a JavaScript object's ordered field list (first match). -/
def lookupField : List (String × JSVal) → String → Option JSVal
  | [], _ => none
  | (k', v) :: rest, k => if k' = k then some v else lookupField rest k

/-- JavaScript property assignment `o[k] = v` on an ordered field list:
an existing key is updated in place, a new key is appended. -/
def setField : List (String × JSVal) → String → JSVal → List (String × JSVal)
  | [], k, v => [(k, v)]
  | (k', v') :: rest, k, v =>
      if k' = k then (k, v) :: rest else (k', v') :: setField rest k v

/-- Property read `message.f`: `none` when the value is not an object or the
key is absent (JavaScript `undefined`). -/
def getField : JSVal → String → Option JSVal
  | .obj fs, k => lookupField fs k
  | _, _ => none

/-- String-valued field read, collapsing to the text "undefined" when the field
is absent or not a string (mirroring how the absent value behaves under the
source's regex test, which stringifies its argument). -/
def getStrFieldD (v : JSVal) (k : String) : String :=
  match getField v k with
  | some (.str s) => s
  | _ => "undefined"

/-- Abstract syntax of the regular-expression fragment the module compiles:
literal characters, the metacharacter `.` (any character except newline),
the wildcard piece `.*`, sequencing, alternation, and the empty pattern. -/
inductive Rx where
  | eps : Rx
  | lit : Char → Rx
  | anyc : Rx
  | dotstar : Rx
  | seq : Rx → Rx → Rx
  | alt : Rx → Rx → Rx

/-- Remainders after `.*` consumes a (possibly empty) run of non-newline
characters from the front of the input. -/
def dotstarRun : List Char → List (List Char)
  | [] => [[]]
  | c :: cs => (c :: cs) :: (if c = '\n' then [] else dotstarRun cs)

/-- All ways a pattern can match a prefix of the input, as the list of
remainders left over. -/
def Rx.run : Rx → List Char → List (List Char)
  | .eps, cs => [cs]
  | .lit _, [] => []
  | .lit c, c' :: cs => if c' = c then [cs] else []
  | .anyc, [] => []
  | .anyc, c :: cs => if c = '\n' then [] else [cs]
  | .dotstar, cs => dotstarRun cs
  | .seq a b, cs => (a.run cs).flatMap b.run
  | .alt a b, cs => a.run cs ++ b.run cs

/-- Match starting at the current position; when `anchEnd` is set (a `$` ends
the alternative) the remainder must be empty. -/
def testAt (r : Rx) (anchEnd : Bool) (cs : List Char) : Bool :=
  (r.run cs).any fun rem => !anchEnd || rem.isEmpty

/-- Unanchored search: try every start position, as `RegExp.test` does for an
alternative that does not begin with `^`. -/
def testAnywhere (r : Rx) (anchEnd : Bool) (cs : List Char) : Bool :=
  cs.tails.any (testAt r anchEnd)

/-- Alternation of a list of patterns; the empty list is the empty group
`(?:)`, which matches the empty string. -/
def altList : List Rx → Rx
  | [] => .eps
  | [r] => r
  | r :: rs => .alt r (altList rs)

/-- Interpretation of a stored origin or namespace string as pattern text:
`.` is the any-character metacharacter, `.*` the wildcard piece, and every
other character a literal (lowercased when the pattern carries the `i` flag,
as the origin pattern does).  This reading is exact only on that fragment:
the remaining JS metacharacters (`+`, `|`, `?`, parentheses, brackets,
braces, anchors, backslash) are treated as literals here, so every theorem
about a compiled pattern list restricts its stored strings to `plainStr`,
`dotPlainStr` or the exact wildcard entry ".*". -/
def rxOf (low : Bool) : List Char → Rx
  | [] => .eps
  | [c] =>
      if c = '.' then .seq .anyc .eps
      else .seq (.lit (if low then c.toLower else c)) .eps
  | c :: c2 :: cs =>
      if c = '.' then
        if c2 = '*' then .seq .dotstar (rxOf low cs)
        else .seq .anyc (rxOf low (c2 :: cs))
      else .seq (.lit (if low then c.toLower else c)) (rxOf low (c2 :: cs))

/-- Lowercasing used to embed the `i` flag of the origin pattern. -/
def lowerList (cs : List Char) : List Char := cs.map Char.toLower

/-- The scheme part `http(s)?:\/\/` of the origin pattern, followed by the
given origin pattern. -/
def schemeRx (o : Rx) : Rx :=
  .seq (.lit 'h') (.seq (.lit 't') (.seq (.lit 't') (.seq (.lit 'p')
    (.seq (.alt (.lit 's') .eps) (.seq (.lit ':') (.seq (.lit '/')
      (.seq (.lit '/') o)))))))

/-- Search for the non-first, non-last alternatives of the compiled origin
pattern: `origins.join('|')` leaves every middle origin with neither the `^`
of the first alternative nor the `$` of the last, and the last with only `$`. -/
def originAltTest : List String → List Char → Bool
  | [], _ => false
  | [o], cs => testAnywhere (rxOf true o.toList) true cs
  | o :: rest, cs => testAnywhere (rxOf true o.toList) false cs || originAltTest rest cs

/-- Test of the pattern `compileOriginRegExp` builds:
`new RegExp("^http(s)?:\\/\\/" + origins.join('|') + "$", 'i')`.
Because `|` binds loosest, with two or more origins only the first alternative
keeps the `^http(s)?:\/\/` anchor and only the last keeps the `$` anchor. -/
def originRegexTest (origins : List String) (s : String) : Bool :=
  let cs := lowerList s.toList
  match origins with
  | [] => testAt (schemeRx .eps) true cs
  | [o] => testAt (schemeRx (rxOf true o.toList)) true cs
  | o :: rest => testAt (schemeRx (rxOf true o.toList)) false cs || originAltTest rest cs

/-- Test of the pattern `compileNamespaceRegExp` builds:
`new RegExp("\\.(?:" + namespaces.join('|') + ")$")` (case-sensitive); the
non-capturing group keeps both the leading `\.` and the `$` on every
alternative. -/
def namespaceRegexTest (namespaces : List String) (s : String) : Bool :=
  testAnywhere (.seq (.lit '.') (altList (namespaces.map fun n => rxOf false n.toList)))
    true s.toList

/-- The module constant `RE_HAS_NAMESPACE = /\..+$/` as a test: a literal dot
followed by at least one character reaching the end of the string. -/
def reHasNamespace (s : String) : Bool :=
  testAnywhere (.seq (.lit '.') (.seq .anyc .dotstar)) true s.toList

/-- `ALLOW_WILDCARD = '.*'`. -/
def ALLOW_WILDCARD : String := ".*"

/-- `DEFAULT_MESSAGE_NAMESPACE = '.postMessage'` (leading dot included, exactly
as the source stores it both as the appended suffix and as the entry of the
namespace list). -/
def DEFAULT_MESSAGE_NAMESPACE : String := ".postMessage"

/-- `DEFAULT_POSTMESSAGE_OPTIONS = { targetOrigin: '*' }`. -/
def DEFAULT_POSTMESSAGE_OPTIONS : List (String × JSVal) := [("targetOrigin", .str "*")]

/-- `isWildcard(origin)`: the test `/\*/.test(origin)`. -/
def isWildcard (origin : String) : Bool := origin.toList.contains '*'

/-- The module's process-wide mutable state.  The two `RegexSrc` fields hold
the origin / namespace lists from which the cached compiled regular expression
was last built; the source recompiles only at specific points, so these can lag
behind the lists themselves. -/
structure FramesState where
  allowedOrigins : List String
  originRegexSrc : List String
  messageNamespaces : List String
  namespaceRegexSrc : List String
  proxies : List (String × List Nat)
  listening : Bool

/-- Module-load state: `allowedOrigins = ['.*']`, `messageNamespaces =
['.postMessage']`, both regexes compiled from those lists, no proxies, not
listening. -/
def initState : FramesState :=
  { allowedOrigins := [ALLOW_WILDCARD]
    originRegexSrc := [ALLOW_WILDCARD]
    messageNamespaces := [DEFAULT_MESSAGE_NAMESPACE]
    namespaceRegexSrc := [DEFAULT_MESSAGE_NAMESPACE]
    proxies := []
    listening := false }

/-- `removePostMessageOrigin(origin)`: splice the first occurrence out of
`allowedOrigins` and recompile the origin regex; a no-op when absent. -/
def removePostMessageOrigin (st : FramesState) (origin : String) : FramesState :=
  if origin ∈ st.allowedOrigins then
    let l := st.allowedOrigins.erase origin
    { st with allowedOrigins := l, originRegexSrc := l }
  else st

/-- `addPostMessageOrigin(origin)`: a wildcard-bearing origin resets the list
to `['.*']` (without recompiling the regex — the source omits that step in this
branch); otherwise a new origin first removes `'.*'`, is appended, and the
regex is recompiled.  The unconditional recompilation modelled here matches
the source only while every stored origin is valid pattern text (the benign
fragment the theorems quantify over): on invalid text such as "a(" the
source's `new RegExp` throws after the push, leaving its cached regex
stale. -/
def addPostMessageOrigin (st : FramesState) (origin : String) : FramesState :=
  if isWildcard origin then
    { st with allowedOrigins := [ALLOW_WILDCARD] }
  else if origin ∈ st.allowedOrigins then st
  else
    let st1 := removePostMessageOrigin st ALLOW_WILDCARD
    let l := st1.allowedOrigins ++ [origin]
    { st1 with allowedOrigins := l, originRegexSrc := l }

/-- `listen(namespace)`: append the namespace if untracked and recompile the
namespace regex; attach the transport handler (listening flag) if not yet
attached. -/
def listen (st : FramesState) (namespace_ : String) : FramesState :=
  let st1 :=
    if namespace_ ∈ st.messageNamespaces then st
    else
      let l := st.messageNamespaces ++ [namespace_]
      { st with messageNamespaces := l, namespaceRegexSrc := l }
  if st1.listening then st1 else { st1 with listening := true }

/-- `stopListening(namespace)`: splice the namespace out if tracked; recompile
the regex when namespaces remain, otherwise detach the transport handler and
clear the listening flag (the regex is left stale in that branch, as in the
source). -/
def stopListening (st : FramesState) (namespace_ : String) : FramesState :=
  if namespace_ ∈ st.messageNamespaces then
    let l := st.messageNamespaces.erase namespace_
    if l.isEmpty then
      { st with messageNamespaces := l, listening := false }
    else
      { st with messageNamespaces := l, namespaceRegexSrc := l }
  else st

/-- Proxy lookup `proxies[namespace]` (plain own-property lookup on the
module-level object). -/
def lookupProxy : List (String × List Nat) → String → Option (List Nat)
  | [], _ => none
  | (k', v) :: rest, k => if k' = k then some v else lookupProxy rest k

/-- Proxy store `proxies[namespace] = entry`. -/
def setProxy : List (String × List Nat) → String → List Nat → List (String × List Nat)
  | [], k, v => [(k, v)]
  | (k', v') :: rest, k, v =>
      if k' = k then (k, v) :: rest else (k', v') :: setProxy rest k v

/-- The argument of `proxy`: either a single frame or an array of frames
(frames are identified by numeric handles). -/
inductive ProxyArg where
  | one : Nat → ProxyArg
  | many : List Nat → ProxyArg

/-- `proxy(namespace, targets)`: activates the namespace via `listen`, wraps a
non-array argument in a one-element array, and appends to (never replaces) any
existing destination list for that namespace. -/
def proxy (st : FramesState) (namespace_ : String) (targets : ProxyArg) : FramesState :=
  let st1 := listen st namespace_
  let ts := match targets with | .one w => [w] | .many l => l
  match lookupProxy st1.proxies namespace_ with
  | some existing => { st1 with proxies := setProxy st1.proxies namespace_ (existing ++ ts) }
  | none => { st1 with proxies := setProxy st1.proxies namespace_ ts }

/-- One call of the host transport's send primitive
(`target.postMessage(text, targetOrigin)`): the destination frame, the
envelope whose serialization is the text payload, and the target-origin
constraint (`defaultedOptions.targetOrigin`). -/
structure SendRecord where
  target : Nat
  payload : JSVal
  targetOrigin : JSVal

/-- The type-normalization step of `postMessage`: append
`DEFAULT_MESSAGE_NAMESPACE` when `RE_HAS_NAMESPACE` does not match. -/
def normalizeType (type_ : String) : String :=
  if reHasNamespace type_ then type_ else type_ ++ DEFAULT_MESSAGE_NAMESPACE

/-- `postMessage(target, type, data, options = {})`: normalize the type, then
`Object.keys(DEFAULT_POSTMESSAGE_OPTIONS).forEach(key => defaultedOptions[key]
= DEFAULT_POSTMESSAGE_OPTIONS[key])` writes every default over the caller's
options object, and the envelope `{ type, data, defaultedOptions }` (object
shorthand, so the third wire key is the variable name `defaultedOptions`) is
serialized and sent with `defaultedOptions.targetOrigin`. -/
def postMessage (target : Nat) (type_ : String) (data : JSVal)
    (options : List (String × JSVal)) : SendRecord :=
  let type' := normalizeType type_
  let defaultedOptions :=
    DEFAULT_POSTMESSAGE_OPTIONS.foldl (fun acc kv => setField acc kv.1 kv.2) options
  { target := target
    payload := .obj [("type", .str type'), ("data", data),
                     ("defaultedOptions", .obj defaultedOptions)]
    targetOrigin := (lookupField defaultedOptions "targetOrigin").getD .undef }

/-- An inbound transport event `{origin, data, source}`; `data` is the parsed
envelope (the claims under study feed the dispatcher bodies that parse). -/
structure MsgEvent where
  origin : String
  data : JSVal
  source : Nat

/-- The dispatcher's origin gate: accept when the event origin equals the host
document's own origin, or the compiled origin regex matches it, or it is the
literal string "null". -/
def isAllowedOrigin (st : FramesState) (selfOrigin origin : String) : Bool :=
  origin == selfOrigin || originRegexTest st.originRegexSrc origin || origin == "null"

/-- `type.split('.', 2)[1]`: the text between the first dot and the second dot
(or the end); the dispatcher only reaches this after the namespace regex
matched, which guarantees a dot is present. -/
def splitSecond (s : String) : String :=
  ⟨((s.toList.dropWhile fun c => c != '.').drop 1).takeWhile fun c => c != '.'⟩

/-- A locally emitted custom event: `new CustomEvent(type, { detail:
message.data })` with the sender's window handle attached as `source`. -/
structure Emitted where
  evType : String
  detail : JSVal
  source : Nat

/-- The observable output of one dispatcher run: proxy forwards (transport
sends) and the locally dispatched custom event.  The dispatcher mutates no
module state. -/
structure DispatchOut where
  sends : List SendRecord
  emits : List Emitted

/-- The caller-options field list recovered from `message.options`.  Exact for
the envelope domain the claims quantify over: an absent field behaves as the
missing argument (`postMessage` defaults it to `{}`), and an object field is
passed through.  A present primitive value is collapsed to `{}` here, whereas
the strict-mode source would raise a TypeError when the defaults loop assigns
a property to it. -/
def optionsFields (v : Option JSVal) : List (String × JSVal) :=
  match v with
  | some (.obj fs) => fs
  | _ => []

/-- `handleReceiveMessage(e)`: drop silently unless the origin gate passes;
read `message.type`; drop silently unless the compiled namespace regex matches
it; extract the namespace as `type.split('.', 2)[1]`; forward `message.data`
and `message.options` via `postMessage` to every proxy destination registered
for that namespace, with the same type; finally emit the local custom event
carrying `message.data` and the sender handle. -/
def handleReceiveMessage (st : FramesState) (selfOrigin : String) (e : MsgEvent) :
    DispatchOut :=
  if ! isAllowedOrigin st selfOrigin e.origin then ⟨[], []⟩
  else
    let type_ := getStrFieldD e.data "type"
    if ! namespaceRegexTest st.namespaceRegexSrc type_ then ⟨[], []⟩
    else
      let namespace_ := splitSecond type_
      let sends :=
        match lookupProxy st.proxies namespace_ with
        | some targets =>
            targets.map fun t =>
              postMessage t type_ ((getField e.data "data").getD .undef)
                (optionsFields (getField e.data "options"))
        | none => []
      ⟨sends, [⟨type_, (getField e.data "data").getD .undef, e.source⟩]⟩

/-- The optional `source` filter of `receiveMessage`: a frame handle together
with the handle of its content window; an event passes when either equals the
event's source (`source !== e.source && source.contentWindow !== e.source`
rejects). -/
structure SrcWin where
  self : Nat
  content : Nat

/-- One registration in the host's local event system.  `once` marks the
wrapper built by `receiveMessageOnce`, which detaches itself after running.
`cb` tags the user callback, `id` identifies the registered listener function
for `removeEventListener`. -/
structure Handler where
  id : Nat
  evType : String
  source : Option SrcWin
  once : Bool
  cb : Nat

/-- `receiveMessage(source, type, callback, context)` after its argument
shift: registers a `scoped` listener for the local event `type`. -/
def receiveMessageHandler (id : Nat) (source : Option SrcWin) (evType : String)
    (cb : Nat) : Handler :=
  { id := id, evType := evType, source := source, once := false, cb := cb }

/-- A character with no special meaning inside the regular-expression text the
module builds from stored origin and namespace strings. -/
def plainChar (c : Char) : Bool :=
  !(c ∈ ['.', '*', '+', '?', '(', ')', '[', ']', '\x7b', '\x7d', '^', '$', '|', '\\', '\n'])

/-- A string that the compiled pattern treats as a literal: every character is
plain. -/
def plainStr (s : String) : Bool := s.toList.all plainChar

/-- A character that is plain or the dot metacharacter: host names such as
"a.com" consist of these.  Inside the compiled pattern a stored dot matches
any single non-newline character (the source never escapes it). -/
def dotPlainChar (c : Char) : Bool := plainChar c || c == '.'

/-- A stored origin made of plain characters and dots, e.g. any ordinary host
name. -/
def dotPlainStr (s : String) : Bool := s.toList.all dotPlainChar

/-- Whether the compiled pattern of a stored origin matches somewhere inside
the (lowercased) input — the condition every alternative of the compiled
origin regular expression needs, since only the first alternative is anchored
to the scheme and only the last to the end. -/
def patOccursIn (P : String) (cs : List Char) : Bool :=
  cs.tails.any fun t => !((rxOf true P.toList).run t).isEmpty

/-- Executable leading-segment test: `isLead a b` holds when `b` starts with
`a`. -/
def isLead : List Char → List Char → Bool
  | [], _ => true
  | _ :: _, [] => false
  | a :: as, b :: bs => a == b && isLead as bs

/-- Executable containment test: `occursIn a b` holds when `a` occurs
contiguously inside `b`. -/
def occursIn (a b : List Char) : Bool :=
  b.tails.any (isLead a)

/-- Specification-side reading of "the type contains a `.`-delimited namespace
suffix": the string decomposes as some text, a dot, and a nonempty
namespace part. -/
def hasNamespaceSuffix (cs : List Char) : Prop :=
  ∃ a b, cs = a ++ '.' :: b ∧ b ≠ []

/-- Whether a JavaScript value is `undefined`. -/
def JSVal.isUndef : JSVal → Bool
  | .undef => true
  | _ => false

/-- The field names of an object value, in serialization order. -/
def objKeys : JSVal → List String
  | .obj fs => fs.map Prod.fst
  | _ => []

/-- The field names that appear in `JSON.stringify` output for an object:
fields holding `undefined` are omitted by the serializer. -/
def serializedKeys : JSVal → List String
  | .obj fs => (fs.filter fun kv => ! kv.2.isUndef).map Prod.fst
  | _ => []

/-- One public origin-set operation. -/
inductive OriginOp where
  | add : String → OriginOp
  | remove : String → OriginOp

/-- Apply one origin-set operation. -/
def applyOriginOp (st : FramesState) : OriginOp → FramesState
  | .add o => addPostMessageOrigin st o
  | .remove o => removePostMessageOrigin st o

/-- Apply a sequence of origin-set operations, oldest first. -/
def applyOriginOps (st : FramesState) (ops : List OriginOp) : FramesState :=
  ops.foldl applyOriginOp st

/-- An origin-set operation whose argument stays inside the fragment of
pattern text this embedding interprets exactly.  A wildcard-bearing `add`
resets the list without compiling anything, so any such argument is fine; a
non-wildcard `add` gets its argument stored and compiled, so it must be
host-shaped (plain characters and dots) — text that is both valid regular
expression syntax (`new RegExp` cannot throw on it) and free of the JS
metacharacters (`+`, `|`, `?`, parentheses, brackets, ...) that `rxOf` reads
as literals; a `remove` never compiles its argument. -/
def benignOriginOp : OriginOp → Bool
  | .add o => isWildcard o || dotPlainStr o
  | .remove _ => true

/-- Every entry of a stored origin list lies in the exactly-modelled pattern
fragment: the wildcard entry '.*' or host-shaped text. -/
def benignEntries (l : List String) : Prop :=
  ∀ O ∈ l, O = ALLOW_WILDCARD ∨ dotPlainStr O = true

/-- The string "https://" prefixed to an origin, the scheme-qualified form in
which an inbound event reports a trusted host. -/
def withHttps (origin : String) : String :=
  ⟨"https://".toList ++ origin.toList⟩

/-- The literal character list a plain pattern string stands for: lowercased
when the pattern carries the `i` flag. -/
def litChars (low : Bool) (cs : List Char) : List Char :=
  if low then lowerList cs else cs

/-- The state after two `proxy` calls on the same namespace from the
module-load state. -/
def c9State (n : String) (a b : List Nat) : FramesState :=
  proxy (proxy initState n (.many a)) n (.many b)

/-! ### Lemmas about the embedded regular-expression matcher -/

theorem mem_run_eps {rem cs : List Char} : rem ∈ Rx.eps.run cs ↔ rem = cs := by
  simp [Rx.run]

theorem mem_run_lit {c : Char} {rem cs : List Char} :
    rem ∈ (Rx.lit c).run cs ↔ cs = c :: rem := by
  cases cs with
  | nil => simp [Rx.run]
  | cons c' cs' =>
      simp only [Rx.run]
      by_cases h : c' = c
      · subst h
        simp [eq_comm]
      · simp [h, Ne.symm h]

theorem mem_run_anyc {rem cs : List Char} :
    rem ∈ Rx.anyc.run cs ↔ ∃ c, c ≠ '\n' ∧ cs = c :: rem := by
  cases cs with
  | nil => simp [Rx.run]
  | cons c' cs' =>
      simp only [Rx.run]
      by_cases h : c' = '\n'
      · subst h
        simp only [if_pos rfl]
        constructor
        · intro h'
          exact absurd h' (List.not_mem_nil rem)
        · rintro ⟨c, hc, he⟩
          injection he with h1 _
          exact absurd h1.symm hc
      · simp only [if_neg h, List.mem_singleton]
        constructor
        · intro h'
          exact ⟨c', h, by rw [h']⟩
        · rintro ⟨c, _, he⟩
          injection he with _ h2
          exact h2.symm

theorem mem_run_seq {a b : Rx} {rem cs : List Char} :
    rem ∈ (Rx.seq a b).run cs ↔ ∃ mid ∈ a.run cs, rem ∈ b.run mid := by
  simp [Rx.run, List.mem_flatMap]

theorem mem_run_alt {a b : Rx} {rem cs : List Char} :
    rem ∈ (Rx.alt a b).run cs ↔ rem ∈ a.run cs ∨ rem ∈ b.run cs := by
  simp [Rx.run]

theorem nil_mem_dotstarRun {l : List Char} : [] ∈ dotstarRun l ↔ '\n' ∉ l := by
  induction l with
  | nil => simp [dotstarRun]
  | cons c cs ih =>
      by_cases h : c = '\n'
      · subst h; simp [dotstarRun]
      · have hne : ¬ '\n' = c := fun he => h he.symm
        simp [dotstarRun, h, hne, ih]

theorem mem_dotstarRun_suffix {rem l : List Char} (h : rem ∈ dotstarRun l) : rem <:+ l := by
  induction l with
  | nil => simp [dotstarRun] at h; simp [h]
  | cons c cs ih =>
      simp only [dotstarRun] at h
      rcases List.mem_cons.mp h with h1 | h1
      · simp [h1]
      · by_cases hc : c = '\n'
        · simp [hc] at h1
        · simp [hc] at h1
          exact (ih h1).trans (List.suffix_cons c cs)

theorem run_suffix {r : Rx} {rem cs : List Char} (h : rem ∈ r.run cs) : rem <:+ cs := by
  induction r generalizing rem cs with
  | eps => rw [mem_run_eps] at h; simp [h]
  | lit c => rw [mem_run_lit] at h; subst h; exact List.suffix_cons c rem
  | anyc =>
      rw [mem_run_anyc] at h
      obtain ⟨c, _, rfl⟩ := h
      exact List.suffix_cons c rem
  | dotstar => exact mem_dotstarRun_suffix h
  | seq a b iha ihb =>
      rw [mem_run_seq] at h
      obtain ⟨mid, hmid, hrem⟩ := h
      exact (ihb hrem).trans (iha hmid)
  | alt a b iha ihb =>
      rw [mem_run_alt] at h
      rcases h with h | h
      · exact iha h
      · exact ihb h

theorem mem_run_altList {rs : List Rx} (hne : rs ≠ []) {rem cs : List Char} :
    rem ∈ (altList rs).run cs ↔ ∃ r ∈ rs, rem ∈ r.run cs := by
  induction rs with
  | nil => exact absurd rfl hne
  | cons r rs ih =>
      cases rs with
      | nil => simp [altList]
      | cons r' rs' =>
          simp only [altList, mem_run_alt]
          rw [ih (List.cons_ne_nil r' rs')]
          simp

theorem litChars_cons (low : Bool) (c : Char) (cs : List Char) :
    litChars low (c :: cs) = (if low then c.toLower else c) :: litChars low cs := by
  cases low <;> simp [litChars, lowerList]

theorem rxOf_cons_plain (low : Bool) {c : Char} (hc : plainChar c = true) (cs : List Char) :
    rxOf low (c :: cs) = .seq (.lit (if low then c.toLower else c)) (rxOf low cs) := by
  have hdot : ¬ c = '.' := by
    intro h
    subst h
    exact absurd hc (by decide)
  cases cs with
  | nil => simp [rxOf, hdot]
  | cons c2 cs' => simp [rxOf, hdot]

theorem mem_run_rxOf_plain {low : Bool} {o : List Char}
    (ho : ∀ c ∈ o, plainChar c = true) {rem cs : List Char} :
    rem ∈ (rxOf low o).run cs ↔ cs = litChars low o ++ rem := by
  induction o generalizing cs with
  | nil =>
      simp only [rxOf, mem_run_eps, litChars, lowerList]
      cases low <;> simp [eq_comm]
  | cons c o ih =>
      have hc : plainChar c = true := ho c (List.mem_cons_self c o)
      have ho' : ∀ c' ∈ o, plainChar c' = true := fun c' h' => ho c' (List.mem_cons_of_mem c h')
      rw [rxOf_cons_plain low hc, litChars_cons, mem_run_seq]
      constructor
      · rintro ⟨mid, hmid, hrem⟩
        rw [mem_run_lit] at hmid
        rw [(ih ho').mp hrem] at hmid
        simp [hmid]
      · intro h
        exact ⟨litChars low o ++ rem, by rw [mem_run_lit, h, List.cons_append],
          (ih ho').mpr rfl⟩

theorem testAt_end_iff {r : Rx} {cs : List Char} :
    testAt r true cs = true ↔ [] ∈ r.run cs := by
  simp only [testAt, List.any_eq_true, Bool.not_true, Bool.false_or]
  constructor
  · rintro ⟨rem, hrem, he⟩
    rwa [List.isEmpty_iff.mp he] at hrem
  · intro h
    exact ⟨[], h, rfl⟩

theorem testAt_free_iff {r : Rx} {cs : List Char} :
    testAt r false cs = true ↔ ∃ rem, rem ∈ r.run cs := by
  simp only [testAt, List.any_eq_true, Bool.not_false, Bool.true_or]
  constructor
  · rintro ⟨rem, hrem, _⟩
    exact ⟨rem, hrem⟩
  · rintro ⟨rem, hrem⟩
    exact ⟨rem, hrem, trivial⟩

theorem testAnywhere_end_iff {r : Rx} {cs : List Char} :
    testAnywhere r true cs = true ↔ ∃ t, t <:+ cs ∧ [] ∈ r.run t := by
  simp only [testAnywhere, List.any_eq_true]
  constructor
  · rintro ⟨t, ht, he⟩
    exact ⟨t, (List.mem_tails t cs).mp ht, testAt_end_iff.mp he⟩
  · rintro ⟨t, ht, he⟩
    exact ⟨t, (List.mem_tails t cs).mpr ht, testAt_end_iff.mpr he⟩

theorem testAnywhere_free_iff {r : Rx} {cs : List Char} :
    testAnywhere r false cs = true ↔ ∃ t, t <:+ cs ∧ ∃ rem, rem ∈ r.run t := by
  simp only [testAnywhere, List.any_eq_true]
  constructor
  · rintro ⟨t, ht, he⟩
    exact ⟨t, (List.mem_tails t cs).mp ht, testAt_free_iff.mp he⟩
  · rintro ⟨t, ht, he⟩
    exact ⟨t, (List.mem_tails t cs).mpr ht, testAt_free_iff.mpr he⟩

theorem schemeRx_run_https (o : Rx) (mid : List Char) :
    (schemeRx o).run
      ('h' :: 't' :: 't' :: 'p' :: 's' :: ':' :: '/' :: '/' :: mid) = o.run mid := by
  simp [schemeRx, Rx.run]

theorem schemeRx_run_sub {o : Rx} {rem cs : List Char}
    (h : rem ∈ (schemeRx o).run cs) : ∃ mid, mid <:+ cs ∧ rem ∈ o.run mid := by
  simp only [schemeRx] at h
  obtain ⟨m1, h1, h⟩ := mem_run_seq.mp h
  obtain ⟨m2, h2, h⟩ := mem_run_seq.mp h
  obtain ⟨m3, h3, h⟩ := mem_run_seq.mp h
  obtain ⟨m4, h4, h⟩ := mem_run_seq.mp h
  obtain ⟨m5, h5, h⟩ := mem_run_seq.mp h
  obtain ⟨m6, h6, h⟩ := mem_run_seq.mp h
  obtain ⟨m7, h7, h⟩ := mem_run_seq.mp h
  obtain ⟨m8, h8, h⟩ := mem_run_seq.mp h
  exact ⟨m8, (run_suffix h8).trans ((run_suffix h7).trans ((run_suffix h6).trans
    ((run_suffix h5).trans ((run_suffix h4).trans ((run_suffix h3).trans
      ((run_suffix h2).trans (run_suffix h1))))))), h⟩

theorem plainStr_chars {s : String} (h : plainStr s = true) :
    ∀ c ∈ s.toList, plainChar c = true := by
  simpa [plainStr, List.all_eq_true] using h

theorem isLead_append (a t : List Char) : isLead a (a ++ t) = true := by
  induction a with
  | nil => simp [isLead]
  | cons c cs ih => simp [isLead, ih]

theorem occursIn_of {a rem t cs : List Char} (hsuf : t <:+ cs) (heq : t = a ++ rem) :
    occursIn a cs = true := by
  refine List.any_eq_true.mpr ⟨t, (List.mem_tails t cs).mpr hsuf, ?_⟩
  rw [heq]
  exact isLead_append a rem

theorem lowerList_withHttps (O : String) :
    lowerList (withHttps O).toList =
      'h' :: 't' :: 't' :: 'p' :: 's' :: ':' :: '/' :: '/' :: lowerList O.toList := by
  show lowerList ("https://".toList ++ O.toList) = _
  rw [lowerList, List.map_append]
  rfl

theorem litChars_true (cs : List Char) : litChars true cs = lowerList cs := rfl

theorem litChars_false (cs : List Char) : litChars false cs = cs := rfl

theorem nil_mem_run_rxOf_plain {low : Bool} {O : String} (hp : plainStr O = true) :
    [] ∈ (rxOf low O.toList).run (litChars low O.toList) := by
  exact (mem_run_rxOf_plain (plainStr_chars hp)).mpr (List.append_nil _).symm

theorem litChars_nil (low : Bool) : litChars low [] = [] := by
  cases low <;> rfl

theorem mem_run_rxOf_dotPlain {low : Bool} {o : List Char}
    (ho : ∀ c ∈ o, dotPlainChar c = true) (rest : List Char) :
    rest ∈ (rxOf low o).run (litChars low o ++ rest) := by
  induction o with
  | nil =>
      rw [litChars_nil, List.nil_append]
      exact mem_run_eps.mpr rfl
  | cons c o' ih =>
      have ho' : ∀ c' ∈ o', dotPlainChar c' = true :=
        fun c' h' => ho c' (List.mem_cons_of_mem c h')
      by_cases hdot : c = '.'
      · subst hdot
        have hlit : (if low then Char.toLower '.' else '.') = '.' := by
          cases low <;> decide
        rw [litChars_cons, hlit]
        cases o' with
        | nil =>
            rw [litChars_nil]
            show rest ∈ (Rx.seq .anyc .eps).run ('.' :: [] ++ rest)
            refine mem_run_seq.mpr ⟨rest, ?_, mem_run_eps.mpr rfl⟩
            exact mem_run_anyc.mpr ⟨'.', by decide, rfl⟩
        | cons c2 cs2 =>
            have hc2 : ¬ c2 = '*' := by
              intro he
              have hm := ho' c2 (List.mem_cons_self c2 cs2)
              rw [he] at hm
              exact absurd hm (by decide)
            have hrx : rxOf low ('.' :: c2 :: cs2) = .seq .anyc (rxOf low (c2 :: cs2)) := by
              simp [rxOf, hc2]
            rw [hrx]
            refine mem_run_seq.mpr ⟨litChars low (c2 :: cs2) ++ rest, ?_, ih ho'⟩
            exact mem_run_anyc.mpr ⟨'.', by decide, rfl⟩
      · have hplain : plainChar c = true := by
          by_cases hpc : plainChar c = true
          · exact hpc
          · have hc := ho c (List.mem_cons_self c o')
            simp [dotPlainChar, hpc] at hc
            exact absurd hc hdot
        rw [rxOf_cons_plain low hplain, litChars_cons]
        refine mem_run_seq.mpr ⟨litChars low o' ++ rest, mem_run_lit.mpr rfl, ih ho'⟩

theorem nil_mem_run_rxOf_dotPlain {low : Bool} {O : String} (hp : dotPlainStr O = true) :
    [] ∈ (rxOf low O.toList).run (litChars low O.toList) := by
  have hall : ∀ c ∈ O.toList, dotPlainChar c = true := by
    simpa [dotPlainStr, List.all_eq_true] using hp
  have h := @mem_run_rxOf_dotPlain low O.toList hall []
  rwa [List.append_nil] at h

theorem patOccursIn_of_run {P : String} {cs t rem : List Char} (hts : t <:+ cs)
    (hrun : rem ∈ (rxOf true P.toList).run t) : patOccursIn P cs = true := by
  refine List.any_eq_true.mpr ⟨t, (List.mem_tails t cs).mpr hts, ?_⟩
  cases hcase : (rxOf true P.toList).run t with
  | nil =>
      rw [hcase] at hrun
      exact absurd hrun (List.not_mem_nil rem)
  | cons x xs => rfl

theorem originAltTest_of_mem {alts : List String} {O : String} (hm : O ∈ alts)
    (hrun : [] ∈ (rxOf true O.toList).run (lowerList O.toList)) {cs : List Char}
    (hsuf : lowerList O.toList <:+ cs) :
    originAltTest alts cs = true := by
  induction alts with
  | nil => exact absurd hm (List.not_mem_nil O)
  | cons o rest ih =>
      cases rest with
      | nil =>
          have : O = o := by simpa using hm
          subst this
          simp only [originAltTest]
          exact testAnywhere_end_iff.mpr ⟨lowerList O.toList, hsuf, hrun⟩
      | cons r' rs' =>
          by_cases hO : O = o
          · subst hO
            simp only [originAltTest, Bool.or_eq_true]
            exact Or.inl (testAnywhere_free_iff.mpr ⟨lowerList O.toList, hsuf, [], hrun⟩)
          · have hm' : O ∈ r' :: rs' := by
              rcases List.mem_cons.mp hm with h | h
              · exact absurd h hO
              · exact h
            simp only [originAltTest, Bool.or_eq_true]
            exact Or.inr (ih hm')

theorem originRegexTest_accepts {origins : List String} {O : String} (hm : O ∈ origins)
    (hrun : [] ∈ (rxOf true O.toList).run (lowerList O.toList)) :
    originRegexTest origins (withHttps O) = true := by
  have hcs := lowerList_withHttps O
  cases origins with
  | nil => exact absurd hm (List.not_mem_nil O)
  | cons o rest =>
      cases rest with
      | nil =>
          have : O = o := by simpa using hm
          subst this
          simp only [originRegexTest]
          rw [hcs]
          exact testAt_end_iff.mpr (by rw [schemeRx_run_https]; exact hrun)
      | cons r' rs' =>
          simp only [originRegexTest, Bool.or_eq_true]
          by_cases hO : O = o
          · subst hO
            refine Or.inl ?_
            rw [hcs]
            exact testAt_free_iff.mpr ⟨[], by rw [schemeRx_run_https]; exact hrun⟩
          · have hm' : O ∈ r' :: rs' := by
              rcases List.mem_cons.mp hm with h | h
              · exact absurd h hO
              · exact h
            refine Or.inr ?_
            rw [hcs]
            exact originAltTest_of_mem hm' hrun
              (List.suffix_append ['h', 't', 't', 'p', 's', ':', '/', '/'] (lowerList O.toList))

theorem originAltTest_none {alts : List String} {cs : List Char}
    (hno : ∀ P ∈ alts, patOccursIn P cs = false) :
    originAltTest alts cs = false := by
  induction alts with
  | nil => rfl
  | cons o rest ih =>
      have ho := hno o (List.mem_cons_self o rest)
      have hoa : testAnywhere (rxOf true o.toList) true cs = false ∧
          testAnywhere (rxOf true o.toList) false cs = false := by
        constructor
        · by_contra hcon
          rw [Bool.not_eq_false] at hcon
          obtain ⟨t, hts, hrun⟩ := testAnywhere_end_iff.mp hcon
          exact absurd (patOccursIn_of_run hts hrun) (by rw [ho]; exact Bool.false_ne_true)
        · by_contra hcon
          rw [Bool.not_eq_false] at hcon
          obtain ⟨t, hts, rem, hrun⟩ := testAnywhere_free_iff.mp hcon
          exact absurd (patOccursIn_of_run hts hrun) (by rw [ho]; exact Bool.false_ne_true)
      cases rest with
      | nil => simpa [originAltTest] using hoa.1
      | cons r' rs' =>
          have hrest : ∀ P ∈ r' :: rs', patOccursIn P cs = false :=
            fun P hP => hno P (List.mem_cons_of_mem o hP)
          simp only [originAltTest, Bool.or_eq_false_iff]
          exact ⟨hoa.2, ih hrest⟩

theorem originRegexTest_rejects {origins : List String} {s : String} (hne : origins ≠ [])
    (hno : ∀ P ∈ origins, patOccursIn P (lowerList s.toList) = false) :
    originRegexTest origins s = false := by
  cases origins with
  | nil => exact absurd rfl hne
  | cons o rest =>
      have ho := hno o (List.mem_cons_self o rest)
      have hfirstEnd : testAt (schemeRx (rxOf true o.toList)) true (lowerList s.toList) = false := by
        by_contra hcon
        rw [Bool.not_eq_false] at hcon
        obtain ⟨mid, hmid, hrun⟩ := schemeRx_run_sub (testAt_end_iff.mp hcon)
        exact absurd (patOccursIn_of_run hmid hrun) (by rw [ho]; exact Bool.false_ne_true)
      have hfirstFree : testAt (schemeRx (rxOf true o.toList)) false (lowerList s.toList) = false := by
        by_contra hcon
        rw [Bool.not_eq_false] at hcon
        obtain ⟨rem, hrem⟩ := testAt_free_iff.mp hcon
        obtain ⟨mid, hmid, hrun⟩ := schemeRx_run_sub hrem
        exact absurd (patOccursIn_of_run hmid hrun) (by rw [ho]; exact Bool.false_ne_true)
      cases rest with
      | nil => simpa [originRegexTest] using hfirstEnd
      | cons r' rs' =>
          have hrest : ∀ P ∈ r' :: rs', patOccursIn P (lowerList s.toList) = false :=
            fun P hP => hno P (List.mem_cons_of_mem o hP)
          simp only [originRegexTest, Bool.or_eq_false_iff]
          exact ⟨hfirstFree, originAltTest_none hrest⟩

theorem namespaceRegexTest_of_suffix {nss : List String} {n ty : String} (hm : n ∈ nss)
    (hp : plainStr n = true) (hsuf : ('.' :: n.toList) <:+ ty.toList) :
    namespaceRegexTest nss ty = true := by
  have hne : nss.map (fun n => rxOf false n.toList) ≠ [] := by
    cases nss with
    | nil => exact absurd hm (List.not_mem_nil n)
    | cons a l => simp
  refine testAnywhere_end_iff.mpr ⟨'.' :: n.toList, hsuf, ?_⟩
  refine mem_run_seq.mpr ⟨n.toList, mem_run_lit.mpr rfl, ?_⟩
  refine (mem_run_altList hne).mpr ⟨rxOf false n.toList, List.mem_map_of_mem _ hm, ?_⟩
  exact nil_mem_run_rxOf_plain hp

theorem namespaceRegexTest_plain_suffix {nss : List String} (hne : nss ≠ [])
    (hall : ∀ n ∈ nss, plainStr n = true) {ty : String}
    (h : namespaceRegexTest nss ty = true) :
    ∃ n ∈ nss, ('.' :: n.toList) <:+ ty.toList := by
  obtain ⟨t, hts, hrun⟩ := testAnywhere_end_iff.mp h
  obtain ⟨mid, hmid, hrest⟩ := mem_run_seq.mp hrun
  rw [mem_run_lit] at hmid
  have hmapne : nss.map (fun n => rxOf false n.toList) ≠ [] := by
    cases nss with
    | nil => exact absurd rfl hne
    | cons a l => simp
  obtain ⟨r, hrm, hr⟩ := (mem_run_altList hmapne).mp hrest
  obtain ⟨n, hn, rfl⟩ := List.mem_map.mp hrm
  have := (mem_run_rxOf_plain (plainStr_chars (hall n hn))).mp hr
  rw [litChars_false, List.append_nil] at this
  subst this
  rw [hmid] at hts
  exact ⟨n, hn, hts⟩

/-! ### Lemmas about the module state machine -/

theorem lookupField_setField (l : List (String × JSVal)) (k : String) (v : JSVal) :
    lookupField (setField l k v) k = some v := by
  induction l with
  | nil => simp [setField, lookupField]
  | cons kv rest ih =>
      obtain ⟨k', v'⟩ := kv
      by_cases h : k' = k
      · simp [setField, h, lookupField]
      · simp [setField, h, lookupField, ih]

theorem removePostMessageOrigin_allowedOrigins (st : FramesState) (o : String) :
    (removePostMessageOrigin st o).allowedOrigins =
      if o ∈ st.allowedOrigins then st.allowedOrigins.erase o else st.allowedOrigins := by
  unfold removePostMessageOrigin
  split <;> rfl

theorem addPostMessageOrigin_allowedOrigins (st : FramesState) (o : String) :
    (addPostMessageOrigin st o).allowedOrigins =
      if isWildcard o then [ALLOW_WILDCARD]
      else if o ∈ st.allowedOrigins then st.allowedOrigins
      else (removePostMessageOrigin st ALLOW_WILDCARD).allowedOrigins ++ [o] := by
  unfold addPostMessageOrigin
  split
  · rfl
  · split
    · rfl
    · rfl

theorem wildcard_sole_step (st : FramesState)
    (h : ALLOW_WILDCARD ∈ st.allowedOrigins → st.allowedOrigins = [ALLOW_WILDCARD])
    (op : OriginOp) :
    ALLOW_WILDCARD ∈ (applyOriginOp st op).allowedOrigins →
      (applyOriginOp st op).allowedOrigins = [ALLOW_WILDCARD] := by
  cases op with
  | add o =>
      show ALLOW_WILDCARD ∈ (addPostMessageOrigin st o).allowedOrigins →
        (addPostMessageOrigin st o).allowedOrigins = [ALLOW_WILDCARD]
      rw [addPostMessageOrigin_allowedOrigins]
      by_cases hw : isWildcard o = true
      · simp [hw]
      · rw [if_neg hw]
        by_cases hm : o ∈ st.allowedOrigins
        · rw [if_pos hm]
          exact h
        · rw [if_neg hm]
          intro hin
          exfalso
          rcases List.mem_append.mp hin with hin | hin
          · rw [removePostMessageOrigin_allowedOrigins] at hin
            by_cases hmem : ALLOW_WILDCARD ∈ st.allowedOrigins
            · rw [if_pos hmem, h hmem, List.erase_cons_head] at hin
              exact absurd hin (List.not_mem_nil _)
            · rw [if_neg hmem] at hin
              exact hmem hin
          · have ho : ALLOW_WILDCARD = o := List.mem_singleton.mp hin
            rw [← ho] at hw
            exact hw (by decide)
  | remove o =>
      show ALLOW_WILDCARD ∈ (removePostMessageOrigin st o).allowedOrigins →
        (removePostMessageOrigin st o).allowedOrigins = [ALLOW_WILDCARD]
      rw [removePostMessageOrigin_allowedOrigins]
      by_cases hm : o ∈ st.allowedOrigins
      · rw [if_pos hm]
        intro hin
        have hw : ALLOW_WILDCARD ∈ st.allowedOrigins := List.mem_of_mem_erase hin
        rw [h hw] at hin hm
        have ho : o = ALLOW_WILDCARD := List.mem_singleton.mp hm
        subst ho
        rw [List.erase_cons_head] at hin
        exact absurd hin (List.not_mem_nil _)
      · rw [if_neg hm]
        exact h

theorem wildcard_sole_ops (ops : List OriginOp) : ∀ st : FramesState,
    (ALLOW_WILDCARD ∈ st.allowedOrigins → st.allowedOrigins = [ALLOW_WILDCARD]) →
    (ALLOW_WILDCARD ∈ (applyOriginOps st ops).allowedOrigins →
      (applyOriginOps st ops).allowedOrigins = [ALLOW_WILDCARD]) := by
  induction ops with
  | nil => exact fun st h => h
  | cons op ops ih => exact fun st h => ih _ (wildcard_sole_step st h op)

theorem sync_inv_step (st : FramesState)
    (h : st.originRegexSrc = st.allowedOrigins ∨ st.allowedOrigins = [ALLOW_WILDCARD])
    (op : OriginOp) :
    (applyOriginOp st op).originRegexSrc = (applyOriginOp st op).allowedOrigins ∨
      (applyOriginOp st op).allowedOrigins = [ALLOW_WILDCARD] := by
  cases op with
  | add o =>
      show (addPostMessageOrigin st o).originRegexSrc =
        (addPostMessageOrigin st o).allowedOrigins ∨
          (addPostMessageOrigin st o).allowedOrigins = [ALLOW_WILDCARD]
      unfold addPostMessageOrigin
      split
      · right
        rfl
      · split
        · exact h
        · left
          rfl
  | remove o =>
      show (removePostMessageOrigin st o).originRegexSrc =
        (removePostMessageOrigin st o).allowedOrigins ∨
          (removePostMessageOrigin st o).allowedOrigins = [ALLOW_WILDCARD]
      unfold removePostMessageOrigin
      split
      · left
        rfl
      · exact h

theorem sync_inv_ops (ops : List OriginOp) : ∀ st : FramesState,
    (st.originRegexSrc = st.allowedOrigins ∨ st.allowedOrigins = [ALLOW_WILDCARD]) →
    ((applyOriginOps st ops).originRegexSrc = (applyOriginOps st ops).allowedOrigins ∨
      (applyOriginOps st ops).allowedOrigins = [ALLOW_WILDCARD]) := by
  induction ops with
  | nil => exact fun st h => h
  | cons op ops ih => exact fun st h => ih _ (sync_inv_step st h op)

theorem benign_entries_step (st : FramesState)
    (ha : benignEntries st.allowedOrigins) (hr : benignEntries st.originRegexSrc)
    (op : OriginOp) (hop : benignOriginOp op = true) :
    benignEntries (applyOriginOp st op).allowedOrigins ∧
      benignEntries (applyOriginOp st op).originRegexSrc := by
  cases op with
  | add o =>
      show benignEntries (addPostMessageOrigin st o).allowedOrigins ∧
        benignEntries (addPostMessageOrigin st o).originRegexSrc
      unfold addPostMessageOrigin
      by_cases hw : isWildcard o = true
      · rw [if_pos hw]
        refine ⟨?_, hr⟩
        intro O hO
        exact Or.inl (List.mem_singleton.mp hO)
      · rw [if_neg hw]
        by_cases hm : o ∈ st.allowedOrigins
        · rw [if_pos hm]
          exact ⟨ha, hr⟩
        · rw [if_neg hm]
          have hod : dotPlainStr o = true := by
            have hb : (isWildcard o || dotPlainStr o) = true := hop
            rcases Bool.or_eq_true_iff.mp hb with h1 | h1
            · exact absurd h1 hw
            · exact h1
          have hrem : benignEntries (removePostMessageOrigin st ALLOW_WILDCARD).allowedOrigins := by
            rw [removePostMessageOrigin_allowedOrigins]
            split
            · intro O hO
              exact ha O (List.mem_of_mem_erase hO)
            · exact ha
          have happ : benignEntries
              ((removePostMessageOrigin st ALLOW_WILDCARD).allowedOrigins ++ [o]) := by
            intro O hO
            rcases List.mem_append.mp hO with h1 | h1
            · exact hrem O h1
            · rw [List.mem_singleton.mp h1]
              exact Or.inr hod
          exact ⟨happ, happ⟩
  | remove o =>
      show benignEntries (removePostMessageOrigin st o).allowedOrigins ∧
        benignEntries (removePostMessageOrigin st o).originRegexSrc
      unfold removePostMessageOrigin
      split
      · constructor <;>
          · intro O hO
            exact ha O (List.mem_of_mem_erase hO)
      · exact ⟨ha, hr⟩

theorem benign_entries_ops (ops : List OriginOp) : ∀ st : FramesState,
    (∀ op ∈ ops, benignOriginOp op = true) →
    benignEntries st.allowedOrigins → benignEntries st.originRegexSrc →
    benignEntries (applyOriginOps st ops).allowedOrigins ∧
      benignEntries (applyOriginOps st ops).originRegexSrc := by
  induction ops with
  | nil => exact fun st _ ha hr => ⟨ha, hr⟩
  | cons op ops ih =>
      intro st hops ha hr
      have hstep := benign_entries_step st ha hr op (hops op (List.mem_cons_self op ops))
      exact ih _ (fun op' h' => hops op' (List.mem_cons_of_mem op h')) hstep.1 hstep.2

theorem dropWhile_bne_append {ev rest : List Char}
    (hev : ∀ c ∈ ev, c ≠ '.') :
    (ev ++ '.' :: rest).dropWhile (fun c => c != '.') = '.' :: rest := by
  induction ev with
  | nil => simp [List.dropWhile]
  | cons c cs ih =>
      have hc : c ≠ '.' := hev c (List.mem_cons_self c cs)
      have ih' := ih fun c' h' => hev c' (List.mem_cons_of_mem c h')
      simp only [List.cons_append, List.dropWhile]
      have hbe : (c != '.') = true := by simpa using hc
      rw [hbe]
      exact ih'

theorem takeWhile_bne_self {n : List Char} (hn : ∀ c ∈ n, c ≠ '.') :
    n.takeWhile (fun c => c != '.') = n := by
  induction n with
  | nil => rfl
  | cons c cs ih =>
      have hc : c ≠ '.' := hn c (List.mem_cons_self c cs)
      have ih' := ih fun c' h' => hn c' (List.mem_cons_of_mem c h')
      simp only [List.takeWhile]
      have hbe : (c != '.') = true := by simpa using hc
      rw [hbe, ih']

theorem splitSecond_append {ev n : List Char} (hev : ∀ c ∈ ev, c ≠ '.')
    (hn : ∀ c ∈ n, c ≠ '.') :
    splitSecond ⟨ev ++ '.' :: n⟩ = ⟨n⟩ := by
  show (⟨(((⟨ev ++ '.' :: n⟩ : String).toList.dropWhile fun c => c != '.').drop 1).takeWhile
    fun c => c != '.'⟩ : String) = (⟨n⟩ : String)
  have ht : (⟨ev ++ '.' :: n⟩ : String).toList = ev ++ '.' :: n := rfl
  rw [ht, dropWhile_bne_append hev, List.drop_one, List.tail_cons, takeWhile_bne_self hn]

/-- C2: the claim says every `postMessage` call hands the transport the
serialization of an envelope with exactly the fields "type", "data" and
"options".  The code serializes the object shorthand `{ type, data,
defaultedOptions }`, so the third field is named "defaultedOptions", there is
no "options" field for the dispatcher's own `message.options` read to find,
and the serialized key list of a concrete call is
["type", "data", "defaultedOptions"]. -/
theorem c2_envelope_keys :
    (∀ (target : Nat) (ty : String) (d : JSVal) (opts : List (String × JSVal)),
      objKeys (postMessage target ty d opts).payload = ["type", "data", "defaultedOptions"]
      ∧ getField (postMessage target ty d opts).payload "options" = none)
    ∧ serializedKeys (postMessage 1 "init.dfp" (.obj [("x", .num 1)]) []).payload
        = ["type", "data", "defaultedOptions"]
    ∧ (["type", "data", "defaultedOptions"] == ["type", "data", "options"]) = false := by
  exact ⟨fun target ty d opts => ⟨rfl, rfl⟩, rfl, rfl⟩

/-- C3 counterexample: the claim says a caller-supplied `targetOrigin` wins
over the default; calling `postMessage` with `targetOrigin =
"https://a.example"` nevertheless invokes the send primitive with "*",
because the defaults are written over the caller's options. -/
theorem c3_counterexample :
    (postMessage 1 "init.dfp" .undef
        [("targetOrigin", .str "https://a.example")]).targetOrigin = .str "*"
    ∧ ("*" == "https://a.example") = false := by
  exact ⟨rfl, rfl⟩

/-- C3 amended: the default-options merge runs after the caller's options, so
`defaultedOptions.targetOrigin` is always "*" and every send uses the
target-origin constraint "*", whatever the caller supplied. -/
theorem c3_amended (target : Nat) (ty : String) (d : JSVal)
    (opts : List (String × JSVal)) :
    (postMessage target ty d opts).targetOrigin = .str "*" := by
  show ((lookupField (DEFAULT_POSTMESSAGE_OPTIONS.foldl
    (fun acc kv => setField acc kv.1 kv.2) opts) "targetOrigin").getD .undef) = .str "*"
  show ((lookupField (setField opts "targetOrigin" (.str "*")) "targetOrigin").getD .undef)
    = .str "*"
  rw [lookupField_setField]
  rfl

/-- C6 counterexample: the claim says `listen("dfp")` then
`stopListening("dfp")` leaves the namespace set empty and the listening flag
false; in fact the default namespace entry remains and the flag stays true. -/
theorem c6_counterexample :
    (stopListening (listen initState "dfp") "dfp").messageNamespaces.isEmpty = false
    ∧ (stopListening (listen initState "dfp") "dfp").listening = true := by
  exact ⟨rfl, rfl⟩

/-- C6 amended: `listen("dfp")` then `stopListening("dfp")` leaves the
namespace set holding exactly the default entry ".postMessage" with the
transport handler still attached, and an inbound message whose type matches
the compiled default pattern is still dispatched to a local event. -/
theorem c6_amended :
    stopListening (listen initState "dfp") "dfp" =
      { allowedOrigins := [ALLOW_WILDCARD], originRegexSrc := [ALLOW_WILDCARD],
        messageNamespaces := [DEFAULT_MESSAGE_NAMESPACE],
        namespaceRegexSrc := [DEFAULT_MESSAGE_NAMESPACE],
        proxies := [], listening := true }
    ∧ (handleReceiveMessage (stopListening (listen initState "dfp") "dfp")
        "https://parent.example"
        ⟨"https://child.example",
          .obj [("type", .str "a.xpostMessage"), ("data", .num 2)], 5⟩).emits.length = 1 := by
  exact ⟨rfl, rfl⟩

/-- C10: in every state reachable from the initial one by
`addPostMessageOrigin` / `removePostMessageOrigin` calls, the wildcard entry
'.*' is the sole member whenever it is present; adding any wildcard-bearing
origin collapses the set to exactly ['.*']; and adding a concrete origin while
the wildcard is present removes the wildcard and appends the concrete origin,
leaving exactly that one origin. -/
theorem c10_wildcard_sole_invariant :
    (∀ ops : List OriginOp,
      ALLOW_WILDCARD ∈ (applyOriginOps initState ops).allowedOrigins →
        (applyOriginOps initState ops).allowedOrigins = [ALLOW_WILDCARD])
    ∧ (∀ (st : FramesState) (o : String), isWildcard o = true →
        (addPostMessageOrigin st o).allowedOrigins = [ALLOW_WILDCARD])
    ∧ (∀ (ops : List OriginOp) (o : String),
        ALLOW_WILDCARD ∈ (applyOriginOps initState ops).allowedOrigins →
        isWildcard o = false →
        (addPostMessageOrigin (applyOriginOps initState ops) o).allowedOrigins = [o]) := by
  refine ⟨fun ops => wildcard_sole_ops ops initState (fun _ => rfl), ?_, ?_⟩
  · intro st o hw
    rw [addPostMessageOrigin_allowedOrigins, if_pos hw]
  · intro ops o hmem hw
    have hsole := wildcard_sole_ops ops initState (fun _ => rfl) hmem
    have hno : o ∉ (applyOriginOps initState ops).allowedOrigins := by
      rw [hsole]
      intro hin
      have : o = ALLOW_WILDCARD := List.mem_singleton.mp hin
      subst this
      exact absurd hw (by decide)
    rw [addPostMessageOrigin_allowedOrigins, if_neg (by simp [hw]), if_neg hno,
      removePostMessageOrigin_allowedOrigins, if_pos hmem, hsole, List.erase_cons_head]
    rfl

/-- C10 witness: concrete instances of the three parts: the initial state has
the wildcard as sole member, adding "*" collapses a state to ['.*'], and
adding "a.com" to the initial (wildcard) state yields exactly ["a.com"]. -/
theorem c10_witness :
    (applyOriginOps initState []).allowedOrigins = [ALLOW_WILDCARD]
    ∧ (addPostMessageOrigin initState "*").allowedOrigins = [ALLOW_WILDCARD]
    ∧ (addPostMessageOrigin (applyOriginOps initState []) "a.com").allowedOrigins
        = ["a.com"] := by
  exact ⟨c10_wildcard_sole_invariant.1 [] (by decide),
    c10_wildcard_sole_invariant.2.1 initState "*" (by decide),
    c10_wildcard_sole_invariant.2.2 [] "a.com" (by decide) (by decide)⟩

/-- Equivalence between the source's `RE_HAS_NAMESPACE` test and the
specification's "contains a `.`-delimited nonempty namespace suffix", for
newline-free type strings. -/
theorem reHasNamespace_iff {s : String} (hnl : '\n' ∉ s.toList) :
    reHasNamespace s = true ↔ hasNamespaceSuffix s.toList := by
  unfold reHasNamespace hasNamespaceSuffix
  rw [testAnywhere_end_iff]
  constructor
  · rintro ⟨t, hts, hrun⟩
    obtain ⟨mid, hmid, hrest⟩ := mem_run_seq.mp hrun
    rw [mem_run_lit] at hmid
    obtain ⟨mid2, hmid2, _⟩ := mem_run_seq.mp hrest
    rw [mem_run_anyc] at hmid2
    obtain ⟨c, _, rfl⟩ := hmid2
    obtain ⟨a, ha⟩ := hts
    exact ⟨a, c :: mid2, by rw [← ha, hmid], List.cons_ne_nil c mid2⟩
  · rintro ⟨a, b, hab, hbne⟩
    cases b with
    | nil => exact absurd rfl hbne
    | cons c b' =>
        have hcb : '\n' ∉ '.' :: c :: b' := by
          intro hin
          apply hnl
          rw [hab]
          exact List.mem_append_right a hin
        refine ⟨'.' :: c :: b', ⟨a, by rw [hab]⟩, ?_⟩
        refine mem_run_seq.mpr ⟨c :: b', mem_run_lit.mpr rfl, ?_⟩
        refine mem_run_seq.mpr ⟨b', mem_run_anyc.mpr ⟨c, ?_, rfl⟩, ?_⟩
        · intro hc
          exact hcb (by rw [hc]; exact List.mem_cons_of_mem _ (List.mem_cons_self _ _))
        · show [] ∈ dotstarRun b'
          refine nil_mem_dotstarRun.mpr ?_
          intro hin
          exact hcb (List.mem_cons_of_mem _ (List.mem_cons_of_mem _ hin))

/-- C8: the envelope's type field is the caller's type run through the
normalization step; a type with a `.`-delimited nonempty namespace suffix is
left unchanged, and a type without one gets the default suffix ".postMessage"
appended. -/
theorem c8_default_namespace_appended (cs : List Char) (hnl : '\n' ∉ cs)
    (target : Nat) (d : JSVal) (opts : List (String × JSVal)) :
    (getField (postMessage target ⟨cs⟩ d opts).payload "type"
      = some (.str (normalizeType ⟨cs⟩)))
    ∧ (hasNamespaceSuffix cs → normalizeType ⟨cs⟩ = ⟨cs⟩)
    ∧ (¬ hasNamespaceSuffix cs →
        normalizeType ⟨cs⟩ = ⟨cs ++ '.' :: "postMessage".toList⟩) := by
  have hnl' : '\n' ∉ (⟨cs⟩ : String).toList := hnl
  refine ⟨rfl, ?_, ?_⟩
  · intro h
    unfold normalizeType
    rw [if_pos ((reHasNamespace_iff hnl').mpr h)]
  · intro h
    unfold normalizeType
    rw [if_neg (fun hc => h ((reHasNamespace_iff hnl').mp hc))]
    rfl

/-- C8 witness: `postMessage(target, "init", data)` produces the envelope type
"init.postMessage". -/
theorem c8_witness :
    getField (postMessage 1 "init" (.num 1) []).payload "type"
      = some (.str "init.postMessage")
    ∧ normalizeType "init" = "init.postMessage" := by
  have h := c8_default_namespace_appended "init".toList (by decide) 1 (.num 1) []
  have hno : ¬ hasNamespaceSuffix "init".toList := by
    rintro ⟨a, b, hab, hbne⟩
    have hdot : '.' ∈ "init".toList := by
      rw [hab]
      exact List.mem_append_right a (List.mem_cons_self _ _)
    exact absurd hdot (by decide)
  have h2 := h.2.2 hno
  exact ⟨h.1.trans (congrArg (fun t => some (JSVal.str t)) h2), h2⟩

theorem c9State_eq (n : String) (hnd : n ≠ DEFAULT_MESSAGE_NAMESPACE) (a b : List Nat) :
    c9State n a b =
      { allowedOrigins := [ALLOW_WILDCARD], originRegexSrc := [ALLOW_WILDCARD],
        messageNamespaces := [DEFAULT_MESSAGE_NAMESPACE, n],
        namespaceRegexSrc := [DEFAULT_MESSAGE_NAMESPACE, n],
        proxies := [(n, a ++ b)], listening := true } := by
  have h1 : listen initState n =
      { allowedOrigins := [ALLOW_WILDCARD], originRegexSrc := [ALLOW_WILDCARD],
        messageNamespaces := [DEFAULT_MESSAGE_NAMESPACE, n],
        namespaceRegexSrc := [DEFAULT_MESSAGE_NAMESPACE, n],
        proxies := [], listening := true } := by
    simp [listen, initState, hnd]
  have h2 : proxy initState n (.many a) =
      { allowedOrigins := [ALLOW_WILDCARD], originRegexSrc := [ALLOW_WILDCARD],
        messageNamespaces := [DEFAULT_MESSAGE_NAMESPACE, n],
        namespaceRegexSrc := [DEFAULT_MESSAGE_NAMESPACE, n],
        proxies := [(n, a)], listening := true } := by
    unfold proxy
    rw [h1]
    rfl
  unfold c9State
  rw [h2]
  simp [proxy, listen, lookupProxy, setProxy]

/-- C9: two `proxy` calls on the same namespace append their destination lists
(the table maps the namespace to the concatenation, never replacing), a single
non-array destination is treated as a one-element list, every `proxy` call
activates the namespace via `listen`, and an inbound message on that namespace
is forwarded to every destination of both calls, in order. -/
theorem c9_proxy_additive (n : String) (hn : plainStr n = true)
    (a b : List Nat) (w : Nat) (ev : List Char) (hev : ∀ c ∈ ev, c ≠ '.')
    (d : JSVal) (src : Nat) :
    lookupProxy (c9State n a b).proxies n = some (a ++ b)
    ∧ n ∈ (c9State n a b).messageNamespaces
    ∧ (c9State n a b).listening = true
    ∧ proxy (c9State n a b) n (.one w) = proxy (c9State n a b) n (.many [w])
    ∧ ((handleReceiveMessage (c9State n a b) "https://parent.example"
        ⟨"https://child.example",
          .obj [("type", .str ⟨ev ++ '.' :: n.toList⟩), ("data", d)], src⟩).sends.map
          (fun s => s.target)) = a ++ b := by
  have hn' : ∀ c ∈ n.toList, c ≠ '.' := by
    intro c hc he
    have hp := plainStr_chars hn c hc
    rw [he] at hp
    exact absurd hp (by decide)
  have hnd : n ≠ DEFAULT_MESSAGE_NAMESPACE := by
    intro he
    rw [he] at hn
    exact absurd hn (by decide)
  rw [c9State_eq n hnd a b]
  refine ⟨by simp [lookupProxy], by simp, rfl, rfl, ?_⟩
  have hallow : isAllowedOrigin
      ({ allowedOrigins := [ALLOW_WILDCARD], originRegexSrc := [ALLOW_WILDCARD],
         messageNamespaces := [DEFAULT_MESSAGE_NAMESPACE, n],
         namespaceRegexSrc := [DEFAULT_MESSAGE_NAMESPACE, n],
         proxies := [(n, a ++ b)], listening := true } : FramesState)
      "https://parent.example" "https://child.example" = true := by
    show (("https://child.example" == "https://parent.example")
      || originRegexTest [ALLOW_WILDCARD] "https://child.example"
      || ("https://child.example" == "null")) = true
    decide
  have hty : getStrFieldD (.obj [("type", .str ⟨ev ++ '.' :: n.toList⟩), ("data", d)]) "type"
      = ⟨ev ++ '.' :: n.toList⟩ := rfl
  have hsuf : ('.' :: n.toList) <:+ (⟨ev ++ '.' :: n.toList⟩ : String).toList :=
    ⟨ev, rfl⟩
  have hns : namespaceRegexTest [DEFAULT_MESSAGE_NAMESPACE, n] ⟨ev ++ '.' :: n.toList⟩
      = true :=
    namespaceRegexTest_of_suffix (List.mem_cons_of_mem _ (List.mem_cons_self n []))
      hn hsuf
  have hsplit : splitSecond ⟨ev ++ '.' :: n.toList⟩ = n := by
    rw [splitSecond_append hev hn']
    rfl
  simp only [handleReceiveMessage, hallow, Bool.not_true, Bool.false_eq_true, if_false,
    hty, hns, if_true, hsplit]
  simp [lookupProxy, List.map_map]
  show List.map (fun t => t) a ++ List.map (fun t => t) b = a ++ b
  simp

/-- C9 witness: `proxy("dfp", [10, 11])` then `proxy("dfp", [12])` forwards a
message of type "init.dfp" to 10, 11 and 12. -/
theorem c9_witness :
    lookupProxy (c9State "dfp" [10, 11] [12]).proxies "dfp" = some [10, 11, 12]
    ∧ (c9State "dfp" [10, 11] [12]).listening = true
    ∧ ((handleReceiveMessage (c9State "dfp" [10, 11] [12]) "https://parent.example"
        ⟨"https://child.example", .obj [("type", .str "init.dfp"), ("data", .num 2)], 5⟩).sends.map
          (fun s => s.target)) = [10, 11, 12] := by
  have h := c9_proxy_additive "dfp" (by decide) [10, 11] [12] 3 "init".toList
    (by decide) (.num 2) 5
  exact ⟨h.1, h.2.2.1, h.2.2.2.2⟩

/-- C5 amended: for a dispatcher state whose compiled namespace list consists
of plain (metacharacter-free) names, an inbound message from an allowed origin
is dispatched exactly when its type ends in a dot followed by one of those
names, and otherwise it is dropped silently: no send, no local event, no state
mutation.  (The default entry ".postMessage" is not plain: its stored leading
dot compiles to an any-character metacharacter, so default-namespaced types
such as "init.postMessage" are dropped while types like "a.xpostMessage" are
dispatched — see the counterexample.) -/
theorem c5_namespace_gate (st : FramesState) (selfO : String) (e : MsgEvent)
    (hall : isAllowedOrigin st selfO e.origin = true)
    (hne : st.namespaceRegexSrc ≠ [])
    (hns : ∀ n ∈ st.namespaceRegexSrc, plainStr n = true) :
    ((∃ n ∈ st.namespaceRegexSrc,
        ('.' :: n.toList) <:+ (getStrFieldD e.data "type").toList) →
      (handleReceiveMessage st selfO e).emits
        = [⟨getStrFieldD e.data "type", (getField e.data "data").getD .undef, e.source⟩])
    ∧ ((¬ ∃ n ∈ st.namespaceRegexSrc,
        ('.' :: n.toList) <:+ (getStrFieldD e.data "type").toList) →
      handleReceiveMessage st selfO e = ⟨[], []⟩) := by
  constructor
  · rintro ⟨n, hmem, hsuf⟩
    have ht := namespaceRegexTest_of_suffix hmem (hns n hmem) hsuf
    simp [handleReceiveMessage, hall, ht]
  · intro hnot
    have ht : namespaceRegexTest st.namespaceRegexSrc (getStrFieldD e.data "type")
        = false := by
      by_contra hcon
      rw [Bool.not_eq_false] at hcon
      exact hnot (namespaceRegexTest_plain_suffix hne hns hcon)
    simp [handleReceiveMessage, hall, ht]

/-- C5 witness: with the plain namespace list ["dfp"] (reachable via
`stopListening(".postMessage")` then `listen("dfp")`), a type ending in ".dfp"
is dispatched and a type ending in ".other" is dropped with no output at
all. -/
theorem c5_witness :
    (handleReceiveMessage (listen (stopListening initState ".postMessage") "dfp")
      "https://parent.example"
      ⟨"https://child.example", .obj [("type", .str "init.dfp"), ("data", .num 3)], 5⟩).emits
      = [⟨"init.dfp", .num 3, 5⟩]
    ∧ handleReceiveMessage (listen (stopListening initState ".postMessage") "dfp")
      "https://parent.example"
      ⟨"https://child.example", .obj [("type", .str "init.other"), ("data", .num 3)], 5⟩
      = ⟨[], []⟩ := by
  refine ⟨(c5_namespace_gate _ _ _ (by decide) (by decide) (by decide)).1
      ⟨"dfp", by decide, by decide⟩,
    (c5_namespace_gate _ _ _ (by decide) (by decide) (by decide)).2 (by decide)⟩

/-- C5 counterexample: under the claim, a message whose type ends with a dot
followed by an active namespace name — including the default namespace — is
dispatched, and every other type is dropped.  After `listen("dfp")` the active
entries are ".postMessage" and "dfp"; the type `postMessage(target, "init",
data)` itself produces, "init.postMessage", ends with "." ++ "postMessage"
(and the claim's other reading, "." ++ ".postMessage", matches no type ending
".postMessage" either), yet the dispatcher drops it silently; meanwhile
"a.xpostMessage" ends with a dot followed by no active entry under either
reading and is dispatched. -/
theorem c5_counterexample :
    normalizeType "init" = "init.postMessage"
    ∧ ((listen initState "dfp").namespaceRegexSrc.contains ".postMessage") = true
    ∧ (('.' :: "postMessage".toList).isSuffixOf "init.postMessage".toList) = true
    ∧ handleReceiveMessage (listen initState "dfp") "https://parent.example"
        ⟨"https://child.example",
          .obj [("type", .str "init.postMessage"), ("data", .num 1)], 5⟩ = ⟨[], []⟩
    ∧ (('.' :: ".postMessage".toList).isSuffixOf "a.xpostMessage".toList) = false
    ∧ (('.' :: "postMessage".toList).isSuffixOf "a.xpostMessage".toList) = false
    ∧ (('.' :: "dfp".toList).isSuffixOf "a.xpostMessage".toList) = false
    ∧ (handleReceiveMessage (listen initState "dfp") "https://parent.example"
        ⟨"https://child.example",
          .obj [("type", .str "a.xpostMessage"), ("data", .num 1)], 5⟩).emits.length = 1 := by
  exact ⟨rfl, rfl, rfl, rfl, rfl, rfl, rfl, rfl⟩

/-- C4 amended: over every state reachable by origin add/remove calls whose
added origins are wildcard-bearing or host-shaped (plain characters and dots —
the fragment on which the stored text is throw-free, metacharacter-exact
regular-expression syntax), every host-shaped origin still present in the
trusted set is accepted in its scheme-qualified form "https://" ++ origin; and
an origin distinct from the host's own origin and from "null" is rejected
whenever the compiled set is nonempty and no stored origin's pattern matches
anywhere inside the lowercased origin string.  Moreover every entry of the
compiled list in such states is the wildcard '.*' or host-shaped, so the
embedded matcher agrees with the source's compiled pattern on them.  The
claim's blanket rejection of never-added origins fails: each non-first,
non-last alternative of the compiled pattern matches as an unanchored
substring and the last as a bare suffix, and '.' in a stored origin matches
any character — see the counterexample. -/
theorem c4_origin_gate (ops : List OriginOp)
    (hops : ∀ op ∈ ops, benignOriginOp op = true) :
    (∀ O ∈ (applyOriginOps initState ops).allowedOrigins, dotPlainStr O = true →
      ∀ selfO : String,
        isAllowedOrigin (applyOriginOps initState ops) selfO (withHttps O) = true)
    ∧ (∀ s selfO : String,
        (applyOriginOps initState ops).originRegexSrc ≠ [] →
        (s == selfO) = false → (s == "null") = false →
        (∀ P ∈ (applyOriginOps initState ops).originRegexSrc,
          patOccursIn P (lowerList s.toList) = false) →
        isAllowedOrigin (applyOriginOps initState ops) selfO s = false)
    ∧ benignEntries (applyOriginOps initState ops).originRegexSrc := by
  refine ⟨?_, ?_, (benign_entries_ops ops initState hops
    (fun O hO => Or.inl (List.mem_singleton.mp hO))
    (fun O hO => Or.inl (List.mem_singleton.mp hO))).2⟩
  · intro O hmem hp selfO
    have hsync := sync_inv_ops ops initState (Or.inl rfl)
    have hrun : [] ∈ (rxOf true O.toList).run (lowerList O.toList) := by
      have h := @nil_mem_run_rxOf_dotPlain true O hp
      rwa [litChars_true] at h
    have hreg : originRegexTest (applyOriginOps initState ops).originRegexSrc
        (withHttps O) = true := by
      rcases hsync with hs | hs
      · rw [hs]
        exact originRegexTest_accepts hmem hrun
      · rw [hs] at hmem
        have hO : O = ALLOW_WILDCARD := List.mem_singleton.mp hmem
        rw [hO] at hp
        exact absurd hp (by decide)
    unfold isAllowedOrigin
    rw [hreg]
    simp
  · intro s selfO hne hself hnull hno
    unfold isAllowedOrigin
    rw [originRegexTest_rejects hne hno, hself, hnull]
    rfl

/-- C4 witness: after adding "a.com", the check accepts "https://a.com" and
rejects the never-added "https://what.example". -/
theorem c4_witness :
    isAllowedOrigin (applyOriginOps initState [.add "a.com"]) "https://me.example"
      (withHttps "a.com") = true
    ∧ isAllowedOrigin (applyOriginOps initState [.add "a.com"]) "https://me.example"
      "https://what.example" = false := by
  exact ⟨(c4_origin_gate [.add "a.com"] (by decide)).1 "a.com" (by decide) (by decide)
      "https://me.example",
    (c4_origin_gate [.add "a.com"] (by decide)).2.1 "https://what.example" "https://me.example"
      (by decide) (by decide) (by decide) (by decide)⟩

/-- C4 counterexample: with the trusted set ["a.com", "b.com"], the origin
"https://evilb.com" was never added, is not the host's own origin and is not
"null", and the wildcard is not active — yet the check accepts it, because the
final alternative "b.com$" of the compiled pattern matches it as a bare
suffix. -/
theorem c4_counterexample :
    (applyOriginOps initState [.add "a.com", .add "b.com"]).allowedOrigins
      = ["a.com", "b.com"]
    ∧ ((applyOriginOps initState [.add "a.com", .add "b.com"]).allowedOrigins.contains
        "https://evilb.com") = false
    ∧ ((applyOriginOps initState [.add "a.com", .add "b.com"]).allowedOrigins.contains
        ALLOW_WILDCARD) = false
    ∧ ("https://evilb.com" == "https://me.example") = false
    ∧ ("https://evilb.com" == "null") = false
    ∧ isAllowedOrigin (applyOriginOps initState [.add "a.com", .add "b.com"])
        "https://me.example" "https://evilb.com" = true := by
  exact ⟨rfl, rfl, rfl, rfl, rfl, rfl⟩

end Frames
